import Mathlib

/-!
Verification of the ranking/draft-state engine of the fantasy draft board
application. The definitions below are a shallow embedding of the program:
`Player`, `byRank`, `availableOf`, `applyReorder`, `draftPlayer`, `undoLast`,
`pickToCoord`, `snakedIndex`/`coordinateToPickIndex`, `posRankMap` and the
structured import-line parser, each translated from the corresponding
JavaScript source. JS numbers are modelled as `Nat` (all quantities involved
are small non-negative integers), JS arrays as `List`, JS objects used as
string/number keyed maps as functions into `Option`.
-/

/-- An entity record, `{ id, name, pos, team, tier, drafted, rank }` as built by
`loadState` / the import handlers. `id` is modelled as a `Nat` (the source uses
an opaque random token; only equality on it is used). -/
structure Player where
  id : Nat
  name : String
  pos : String
  team : String
  tier : Nat
  drafted : Bool
  rank : Nat
deriving Repr, DecidableEq

/-- Engine state: the `players` collection plus the draft event log `history`
(a list of player ids in chronological pick order). -/
structure EngineState where
  players : List Player
  history : List Nat
deriving Repr, DecidableEq

/-- Source: `byRank = [...players].sort((a, b) => (a.rank ?? 0) - (b.rank ?? 0))`.
JS `Array.prototype.sort` is a stable sort, and the stable sort by the numeric
`rank` key is a single well-defined function of the input list; `insertionSort`
with the `rank` comparison computes exactly that function (equal-rank entities
keep their original order). (`rank` is always present in our model, so the
`?? 0` default is moot.) -/
def byRank (ps : List Player) : List Player :=
  ps.insertionSort fun a b => a.rank ≤ b.rank

/-- Source: `available = byRank.filter((p) => !p.drafted)`. -/
def availableOf (ps : List Player) : List Player :=
  (byRank ps).filter fun p => !p.drafted

/-- JS `arr.splice(n, 0, x)` insertion: insert `x` before position `n`,
clamped to the end of the array when `n` exceeds the length. -/
def spliceIn {α : Type} : List α → Nat → α → List α
  | l, 0, x => x :: l
  | [], _ + 1, x => [x]
  | a :: l, n + 1, x => a :: spliceIn l n x

/-- Source, the merge loop of `applyReorder`: walk the previous full ordering
(`byRank`); keep each drafted entity in its slot, and fill each undrafted slot
with the next entry of the reordered available list (`orderedAvail[u++]`).
The `[]` case for a non-empty undrafted slot is unreachable in the source
(there `orderedAvail` has exactly one entry per undrafted slot); the JS code
would push `undefined` there. -/
def mergeRanked : List Player → List Player → List Player
  | [], _ => []
  | p :: rest, avail =>
    if p.drafted then p :: mergeRanked rest avail
    else
      match avail with
      | [] => []
      | a :: tl => a :: mergeRanked rest tl

/-- Source: `byId = Object.fromEntries(ps.map((x) => [x.id, x]))` followed by a
key lookup. `Object.fromEntries` keeps the last entry for a duplicated key,
hence the search over the reversed list. -/
def byIdLookup (ps : List Player) (x : Nat) : Option Player :=
  ps.reverse.find? fun p => p.id == x

/-- Source: `merged.map((p, i) => ({ ...byId[p.id], rank: i }))`, an
index-carrying map. The `none` fallback is unreachable in the source (every
merged entry comes from `ps`, so the id lookup succeeds). -/
def reRankFrom (ps : List Player) : Nat → List Player → List Player
  | _, [] => []
  | n, p :: rest =>
    (match byIdLookup ps p.id with
      | some q => { q with rank := n }
      | none => { p with rank := n }) :: reRankFrom ps (n + 1) rest

/-- Source `applyReorder(fromIndexInAvail, toIndexInAvail)` (current app
version): splice the moved entity out of the available-only ordering and back
in at the target index, merge the result through the drafted slots of the old
full ordering, and rewrite every `rank` to its index in the merged ordering.
The `none` branch (source splice index out of range) is unreachable in the
source: `applyReorder` is only invoked by `onPointerUp` with an index obtained
from a successful `findIndex` over `available`. -/
def applyReorder (ps : List Player) (f t : Nat) : List Player :=
  let avail := availableOf ps
  match avail[f]? with
  | none => ps
  | some moved =>
    let orderedAvail := spliceIn (avail.eraseIdx f) t moved
    let merged := mergeRanked (byRank ps) orderedAvail
    reRankFrom ps 0 merged

/-- JS `x || 1` for a number `x`: `0` is falsy and becomes `1`. -/
def jsOr1 (n : Nat) : Nat := if n = 0 then 1 else n

/-- Source (legacy app version): `byId[x].tier || 1`. The `none` fallback is
unreachable at the call sites (the looked-up id always occurs in `ps`). -/
def tierOfById (ps : List Player) (x : Nat) : Nat :=
  match byIdLookup ps x with
  | some q => jsOr1 q.tier
  | none => 1

/-- JS `Array.prototype.findIndex`: index of the first match, `-1` if none. -/
def jsFindIndex (l : List Player) (f : Player → Bool) : Int :=
  match l.findIdx? f with
  | some i => (i : Int)
  | none => -1

/-- JS indexing `arr[i]` for a possibly negative index: `undefined` (here
`none`) when out of range. -/
def jsAt (l : List Player) (i : Int) : Option Player :=
  if i < 0 then none else l[i.toNat]?

/-- Source (legacy app version), the final map of `applyReorder`:
`merged.map((p, i) => { const base = { ...byId[p.id], rank: i }; if (p.id ===
moved.id) base.tier = newTier; return base; })`. -/
def reRankTierFrom (ps : List Player) (movedId newTier : Nat) :
    Nat → List Player → List Player
  | _, [] => []
  | n, p :: rest =>
    (let base : Player :=
      match byIdLookup ps p.id with
      | some q => { q with rank := n }
      | none => { p with rank := n }
    if p.id == movedId then { base with tier := newTier } else base) ::
      reRankTierFrom ps movedId newTier (n + 1) rest

/-- Source `applyReorder(from, to)` of the legacy app version: the same splice
and merge as the current version, followed by the auto-tier adjustment of the
moved player from its new neighbours (`left`/`right` in `merged`, with JS
negative/overflow indexing yielding `undefined`). -/
def applyReorderLegacy (ps : List Player) (f t : Nat) : List Player :=
  let avail := availableOf ps
  match avail[f]? with
  | none => ps
  | some moved =>
    let ordered := spliceIn (avail.eraseIdx f) t moved
    let merged := mergeRanked (byRank ps) ordered
    let newIndex := jsFindIndex merged fun x => x.id == moved.id
    let left := jsAt merged (newIndex - 1)
    let right := jsAt merged (newIndex + 1)
    let lt := left.map fun q => tierOfById ps q.id
    let rt := right.map fun q => tierOfById ps q.id
    let newTier :=
      match lt, rt with
      | some a, some b => min a b
      | some a, none => a
      | none, some b => b
      | none, none => tierOfById ps moved.id
    reRankTierFrom ps moved.id newTier 0 merged

/-- A sequence of `applyReorder` calls, applied left to right. -/
def applyReorders : List (Nat × Nat) → List Player → List Player
  | [], ps => ps
  | (f, t) :: rest, ps => applyReorders rest (applyReorder ps f t)

/-- A sequence of legacy `applyReorder` calls, applied left to right. -/
def applyReordersLegacy : List (Nat × Nat) → List Player → List Player
  | [], ps => ps
  | (f, t) :: rest, ps => applyReordersLegacy rest (applyReorderLegacy ps f t)

/-- Validity of a sequence of reorder calls: at each step the source index is a
position of the current available-only ordering. -/
def validSeq : List (Nat × Nat) → List Player → Bool
  | [], _ => true
  | (f, t) :: rest, ps =>
    decide (f < (availableOf ps).length) && validSeq rest (applyReorder ps f t)

/-- Validity of a sequence of legacy reorder calls. -/
def validSeqLegacy : List (Nat × Nat) → List Player → Bool
  | [], _ => true
  | (f, t) :: rest, ps =>
    decide (f < (availableOf ps).length) &&
      validSeqLegacy rest (applyReorderLegacy ps f t)

/-- Source `draftPlayer(id)`: set `drafted` on the matching player(s) and
append `id` to the history log. (The source also clears the UI search box,
which is outside the engine state.) -/
def draftPlayer (s : EngineState) (id : Nat) : EngineState :=
  { players := s.players.map fun p => if p.id == id then { p with drafted := true } else p,
    history := s.history ++ [id] }

/-- Source `undoLast()`: a no-op on an empty history; otherwise take the last
logged id (`h[h.length - 1]`), clear that player's `drafted` flag and drop the
last history entry (`h.slice(0, -1)`). -/
def undoLast (s : EngineState) : EngineState :=
  match s.history.getLast? with
  | none => s
  | some last =>
    { players := s.players.map fun p => if p.id == last then { p with drafted := false } else p,
      history := s.history.dropLast }

/-- Source `onPointerUp` commit step (lines 450-462 of the current app): resolve
the dragged id and the insert-before id against the current available ordering
with `findIndex` (`-1` when unresolvable, `available.length` for an
end-of-list target), shift the target left by one when it lies after the
source, and call `applyReorder` only when both resolutions are non-negative. -/
def commitReorder (s : EngineState) (fromId : Option Nat) (toAfterId : Option Nat) :
    EngineState :=
  let avail := availableOf s.players
  let fromIndexInAvail : Int := jsFindIndex avail fun p => some p.id == fromId
  let toIndex0 : Int :=
    match toAfterId with
    | none => (avail.length : Int)
    | some tid => jsFindIndex avail fun p => p.id == tid
  let toIndexInAvail : Int :=
    if fromIndexInAvail < toIndex0 then toIndex0 - 1 else toIndex0
  if 0 ≤ fromIndexInAvail ∧ 0 ≤ toIndexInAvail then
    { s with players := applyReorder s.players fromIndexInAvail.toNat toIndexInAvail.toNat }
  else s

/-- Source `pickToCoord(pickIndex)` (legacy app version; the current version
inlines the same formula): round `r = floor(k / numTeams)`, raw slot
`i = k % numTeams`, column `i` on even rounds and `numTeams - 1 - i` on odd
rounds. -/
def pickToCoord (numTeams pickIndex : Nat) : Nat × Nat :=
  let r := pickIndex / numTeams
  let i := pickIndex % numTeams
  let c := if r % 2 = 0 then i else numTeams - 1 - i
  (r, c)

/-- Source, the `snakedIndex` expression of the current app board renderer:
`r * numTeams + (r % 2 === 0 ? c : numTeams - 1 - c)`, mapping a (round,
column) cell back to its chronological pick index. -/
def snakedIndex (numTeams r c : Nat) : Nat :=
  r * numTeams + (if r % 2 = 0 then c else numTeams - 1 - c)

/-- Source: `const pos = p.pos || "NA"` (an empty category string is falsy). -/
def effPos (p : Player) : String := if p.pos = "" then "NA" else p.pos

/-- The recognized category set: the keys of the source counter object
`{ QB: 0, RB: 0, WR: 0, TE: 0, K: 0, DST: 0 }`. -/
def recognizedPos : List String := ["QB", "RB", "WR", "TE", "K", "DST"]

/-- The source counter object `{ QB: 0, RB: 0, WR: 0, TE: 0, K: 0, DST: 0 }`,
as a map: `some 0` exactly on the recognized keys (`counts[pos] !== undefined`
is the source membership test). -/
def initialCounts : String → Option Nat := fun s =>
  if recognizedPos.contains s then some 0 else none

/-- Pointwise update of a JS-object-as-map: `m[k] = v`. -/
def updateFn {β : Type} [DecidableEq β] (m : β → Option Nat) (k : β) (v : Nat) :
    β → Option Nat :=
  fun x => if x = k then some v else m x

/-- Source, the loop body of `posRankMap`: for each available player in order,
if its (defaulted) position is a counter key, increment that counter and record
the new value under the player's id. -/
def posRankGo :
    (String → Option Nat) → (Nat → Option Nat) → List Player →
      (String → Option Nat) × (Nat → Option Nat)
  | counts, m, [] => (counts, m)
  | counts, m, p :: rest =>
    match counts (effPos p) with
    | none => posRankGo counts m rest
    | some c => posRankGo (updateFn counts (effPos p) (c + 1)) (updateFn m p.id (c + 1)) rest

/-- Source `posRankMap`: the id-keyed map built by one scan of the available
ordering. -/
def posRankMap (avail : List Player) : Nat → Option Nat :=
  (posRankGo initialCounts (fun _ => none) avail).2

/-- A parsed import line, `{ tier, pos, team, name }` in the source. -/
structure ImportRec where
  tier : Nat
  pos : String
  team : String
  name : String
deriving Repr, DecidableEq

/-- JS strings are sequences of code units; we model the parsing pipeline over
`List Char`. A single `String.split`-style splitter: split at every character
satisfying `p`, keeping empty segments (as JS `split` on a regex class does). -/
def splitCharsAux (p : Char → Bool) (acc : List Char) : List Char → List (List Char)
  | [] => [acc.reverse]
  | c :: rest =>
    if p c then acc.reverse :: splitCharsAux p [] rest
    else splitCharsAux p (c :: acc) rest

/-- JS `line.split(/[,\|\t]/)`-style splitting of a character list. -/
def splitChars (p : Char → Bool) (l : List Char) : List (List Char) :=
  splitCharsAux p [] l

/-- Whitespace for JS `trim` (the ASCII cases; the imports handled by the app
are ASCII text). -/
def isWhitespaceCh (c : Char) : Bool :=
  c == ' ' || c == '\t' || c == '\n' || c == '\r'

/-- JS `s.trim()`: drop whitespace from both ends. -/
def trimChars (l : List Char) : List Char :=
  ((l.dropWhile isWhitespaceCh).reverse.dropWhile isWhitespaceCh).reverse

/-- Source: `line.split(/[,\|\t]/).map((s) => s.trim()).filter(Boolean)` — split
on comma, pipe or tab, trim every token and drop the empty ones. -/
def splitTokensCh (line : List Char) : List (List Char) :=
  ((splitChars (fun c => c == ',' || c == '|' || c == '\t') line).map trimChars).filter
    fun t => t ≠ []

/-- JS `/^\d+$/.test(s)`: non-empty and all decimal digits. -/
def allDigitsCh (t : List Char) : Bool := t ≠ [] && t.all Char.isDigit

/-- Membership in the regex character class `[A-Z]`. -/
def isUpperAZ (c : Char) : Bool := 'A' ≤ c && c ≤ 'Z'

/-- JS `s.match(/[A-Z]+/)`: the first maximal run of uppercase letters anywhere
in the string, or the empty string when there is none (the source then takes
`pos = ""`). -/
def firstUpperRunCh : List Char → List Char
  | [] => []
  | c :: rest =>
    if isUpperAZ c then c :: rest.takeWhile isUpperAZ
    else firstUpperRunCh rest

/-- JS `parseInt(s, 10)` on the all-digit tokens reaching it: the decimal value. -/
def digitsToNat (acc : Nat) : List Char → Nat
  | [] => acc
  | c :: rest => digitsToNat (acc * 10 + (c.toNat - 48)) rest

/-- JS `tokens.join(" ")`. -/
def joinSpaceChars : List (List Char) → List Char
  | [] => []
  | [t] => t
  | t :: rest => t ++ ' ' :: joinSpaceChars rest

/-- JS `s.toUpperCase()` (ASCII case mapping, which covers the app inputs). -/
def toUpperCh (t : List Char) : List Char := t.map Char.toUpper

/-- Source `parseImportLine`, structured branch (current app version): when at
least 4 trimmed tokens remain and the first is purely numeric, produce
`{ tier: Math.max(1, parseInt(tok0, 10) || 1), pos: (tok1.toUpperCase().match(/[A-Z]+/)
or ""), team: tok2.toUpperCase(), name: rest.join(" ") }`. When the guard fails
the source falls through to the freeform-regex fallback, which no claim
concerns; this embedding returns `none` there. -/
def parseImportLineStructured (line : String) : Option ImportRec :=
  let parts := splitTokensCh line.data
  if 4 ≤ parts.length ∧ allDigitsCh (parts.getD 0 []) then
    some
      { tier := max 1 (jsOr1 (digitsToNat 0 (parts.getD 0 []))),
        pos := String.mk (firstUpperRunCh (toUpperCh (parts.getD 1 []))),
        team := String.mk (toUpperCh (parts.getD 2 [])),
        name := String.mk (joinSpaceChars (parts.drop 3)) }
  else none

/-- Modelled from the claim wording, for comparison only: the leading run of
uppercase letters of a token, empty when the token does not start with an
uppercase letter. -/
def leadingUpperRun (s : String) : String := String.mk (s.data.takeWhile isUpperAZ)

/-- The per-position view used by the drafted-order invariant: the full
rank-ordered collection with each drafted entity shown as `some id` and each
undrafted slot shown as `none`. -/
def draftedView (ps : List Player) : List (Option Nat) :=
  (byRank ps).map fun p => if p.drafted then some p.id else none

/-- The entity-id sequence of the available-only ordering. -/
def availIds (ps : List Player) : List Nat :=
  (availableOf ps).map Player.id

/-- Projection of a player onto every field except `rank`. -/
def coreFields (p : Player) : Nat × String × String × String × Nat × Bool :=
  (p.id, p.name, p.pos, p.team, p.tier, p.drafted)

/-- Projection of a player onto its id and drafted flag. -/
def idDrafted (p : Player) : Nat × Bool := (p.id, p.drafted)

lemma idDrafted_eq_comp_coreFields :
    idDrafted = (fun t : Nat × String × String × String × Nat × Bool =>
      (t.1, t.2.2.2.2.2)) ∘ coreFields := by
  funext p
  rfl

lemma spliceIn_perm {α : Type} :
    ∀ (l : List α) (n : Nat) (x : α), List.Perm (spliceIn l n x) (x :: l)
  | l, 0, x => by simp [spliceIn]
  | [], _ + 1, x => by simp [spliceIn]
  | a :: l, n + 1, x => by
    simpa [spliceIn] using ((spliceIn_perm l n x).cons a).trans (List.Perm.swap x a l)

lemma getElem_cons_eraseIdx_perm {α : Type} :
    ∀ (l : List α) (i : Nat) (h : i < l.length), List.Perm (l[i] :: l.eraseIdx i) l
  | a :: l, 0, _ => by simp
  | a :: l, i + 1, h => by
    have hi : i < l.length := by simpa using Nat.lt_of_succ_lt_succ h
    have h1 : (a :: l)[i + 1] = l[i] := by simp
    have h2 : (a :: l).eraseIdx (i + 1) = a :: l.eraseIdx i := rfl
    rw [h1, h2]
    exact (List.Perm.swap a (l[i]) (l.eraseIdx i)).trans
      ((getElem_cons_eraseIdx_perm l i hi).cons a)

lemma spliceIn_eraseIdx_self :
    ∀ (l : List Player) (i : Nat) (x : Player), l[i]? = some x →
      spliceIn (l.eraseIdx i) i x = l
  | a :: l, 0, x, h => by
    simp at h
    simp [List.eraseIdx, spliceIn, h]
  | a :: l, i + 1, x, h => by
    have h' : l[i]? = some x := by simpa using h
    simp [List.eraseIdx, spliceIn, spliceIn_eraseIdx_self l i x h']

lemma mergeRanked_self_filter :
    ∀ l : List Player, mergeRanked l (l.filter fun p => !p.drafted) = l := by
  intro l
  induction l with
  | nil => simp [mergeRanked]
  | cons p rest ih =>
    by_cases hp : p.drafted <;> simp [mergeRanked, List.filter_cons, hp, ih]

lemma mergeRanked_perm :
    ∀ (l avail : List Player),
      avail.length = l.countP (fun p => !p.drafted) →
      List.Perm (mergeRanked l avail) ((l.filter fun p => p.drafted) ++ avail) := by
  intro l
  induction l with
  | nil =>
    intro avail h
    simp only [List.countP_nil] at h
    simp [mergeRanked, List.length_eq_zero.mp h]
  | cons p rest ih =>
    intro avail h
    by_cases hp : p.drafted
    · have := (ih avail (by simpa [List.countP_cons, hp] using h)).cons p
      simpa [mergeRanked, hp, List.filter_cons] using this
    · match avail, h with
      | [], h => simp [List.countP_cons, hp] at h
      | a :: tl, h =>
        have htl : tl.length = rest.countP (fun p => !p.drafted) := by
          simpa [List.countP_cons, hp] using h
        have step := (ih tl htl).cons a
        have mid : List.Perm ((rest.filter fun p => p.drafted) ++ a :: tl)
            (a :: ((rest.filter fun p => p.drafted) ++ tl)) := List.perm_middle
        simpa [mergeRanked, hp, List.filter_cons] using step.trans mid.symm

/-- The drafted-slot view of a single player: `some id` when drafted, `none`
when available. -/
def maskOf (p : Player) : Option Nat := if p.drafted then some p.id else none

lemma mergeRanked_map_maskOf :
    ∀ (l avail : List Player),
      (∀ a ∈ avail, a.drafted = false) →
      avail.length = l.countP (fun p => !p.drafted) →
      (mergeRanked l avail).map maskOf = l.map maskOf := by
  intro l
  induction l with
  | nil => intro avail _ _; simp [mergeRanked]
  | cons p rest ih =>
    intro avail h1 h2
    by_cases hp : p.drafted
    · have := ih avail h1 (by simpa [List.countP_cons, hp] using h2)
      simp [mergeRanked, hp, this]
    · match avail, h1, h2 with
      | [], _, h2 => simp [List.countP_cons, hp] at h2
      | a :: tl, h1, h2 =>
        have htl : tl.length = rest.countP (fun p => !p.drafted) := by
          simpa [List.countP_cons, hp] using h2
        have ha : a.drafted = false := h1 a (by simp)
        have := ih tl (fun b hb => h1 b (by simp [hb])) htl
        simp [mergeRanked, hp, maskOf, ha, this]

lemma byIdLookup_eq_self {ps : List Player} (hn : (ps.map Player.id).Nodup)
    {p : Player} (hp : p ∈ ps) : byIdLookup ps p.id = some p := by
  unfold byIdLookup
  have hmem : p ∈ ps.reverse := by simpa using hp
  have hsome : (ps.reverse.find? fun q => q.id == p.id).isSome := by
    rw [List.find?_isSome]
    exact ⟨p, hmem, by simp⟩
  match hfind : ps.reverse.find? fun q => q.id == p.id with
  | none => rw [hfind] at hsome; simp at hsome
  | some q =>
    have hq1 : q.id = p.id := by simpa using List.find?_some hfind
    have hq2 : q ∈ ps := by
      have := List.mem_of_find?_eq_some hfind
      simpa using this
    have heq := List.inj_on_of_nodup_map hn hq2 hp hq1
    rw [hfind, heq]

lemma reRankFrom_map_coreFields {ps : List Player} (hn : (ps.map Player.id).Nodup) :
    ∀ (l : List Player), (∀ p ∈ l, p ∈ ps) → ∀ n,
      (reRankFrom ps n l).map coreFields = l.map coreFields := by
  intro l
  induction l with
  | nil => intro _ _; simp [reRankFrom]
  | cons p rest ih =>
    intro hsub n
    have hp : p ∈ ps := hsub p (by simp)
    have hlook := byIdLookup_eq_self hn hp
    have htl := ih (fun q hq => hsub q (by simp [hq])) (n + 1)
    simp [reRankFrom, hlook, htl, coreFields]

lemma reRankFrom_map_rank {ps : List Player} :
    ∀ (l : List Player) (n : Nat),
      (reRankFrom ps n l).map Player.rank = List.range' n l.length := by
  intro l
  induction l with
  | nil => intro n; simp [reRankFrom]
  | cons p rest ih =>
    intro n
    match hlook : byIdLookup ps p.id with
    | some q => simp [reRankFrom, hlook, List.range'_succ, ih (n + 1)]
    | none => simp [reRankFrom, hlook, List.range'_succ, ih (n + 1)]

lemma reRankTierFrom_map_idDrafted {ps : List Player} (hn : (ps.map Player.id).Nodup)
    (movedId newTier : Nat) :
    ∀ (l : List Player), (∀ p ∈ l, p ∈ ps) → ∀ n,
      (reRankTierFrom ps movedId newTier n l).map idDrafted = l.map idDrafted := by
  intro l
  induction l with
  | nil => intro _ _; simp [reRankTierFrom]
  | cons p rest ih =>
    intro hsub n
    have hp : p ∈ ps := hsub p (by simp)
    have hlook := byIdLookup_eq_self hn hp
    have htl := ih (fun q hq => hsub q (by simp [hq])) (n + 1)
    by_cases hid : (p.id == movedId) = true <;>
      simp [reRankTierFrom, hlook, htl, idDrafted, hid]

lemma reRankTierFrom_map_rank {ps : List Player} (movedId newTier : Nat) :
    ∀ (l : List Player) (n : Nat),
      (reRankTierFrom ps movedId newTier n l).map Player.rank = List.range' n l.length := by
  intro l
  induction l with
  | nil => intro n; simp [reRankTierFrom]
  | cons p rest ih =>
    intro n
    match hlook : byIdLookup ps p.id with
    | some q =>
      by_cases hid : (p.id == movedId) = true <;>
        simp [reRankTierFrom, hlook, hid, List.range'_succ, ih (n + 1)]
    | none =>
      by_cases hid : (p.id == movedId) = true <;>
        simp [reRankTierFrom, hlook, hid, List.range'_succ, ih (n + 1)]

lemma reRankFrom_length {ps : List Player} (l : List Player) (n : Nat) :
    (reRankFrom ps n l).length = l.length := by
  have := congrArg List.length (@reRankFrom_map_rank ps l n)
  simpa using this

lemma pairwise_rank_of_map_range' :
    ∀ (l : List Player) (n : Nat), l.map Player.rank = List.range' n l.length →
      l.Pairwise fun a b => a.rank ≤ b.rank := by
  intro l
  induction l with
  | nil => intro _ _; constructor
  | cons p rest ih =>
    intro n h
    rw [List.map_cons, List.length_cons, List.range'_succ] at h
    have h1 : p.rank = n := (List.cons.injEq _ _ _ _ ▸ h).1
    have h2 : rest.map Player.rank = List.range' (n + 1) rest.length :=
      (List.cons.injEq _ _ _ _ ▸ h).2
    constructor
    · intro q hq
      have : q.rank ∈ List.range' (n + 1) rest.length := by
        rw [← h2]; exact List.mem_map_of_mem Player.rank hq
      rw [List.mem_range'] at this
      obtain ⟨i, _, hqi⟩ := this
      omega
    · exact ih (n + 1) h2

lemma byRank_eq_self {l : List Player} (h : l.Pairwise fun a b => a.rank ≤ b.rank) :
    byRank l = l := by
  unfold byRank
  exact List.Sorted.insertionSort_eq h

lemma spliceIn_length {α : Type} :
    ∀ (l : List α) (n : Nat) (x : α), (spliceIn l n x).length = l.length + 1
  | l, 0, x => by simp [spliceIn]
  | [], n + 1, x => by simp [spliceIn]
  | a :: l, n + 1, x => by simp [spliceIn, spliceIn_length l n x]

lemma id_eq_fst_comp_coreFields :
    Player.id = (fun t : Nat × String × String × String × Nat × Bool => t.1) ∘ coreFields := by
  funext p
  rfl

lemma maskOf_eq_comp_idDrafted :
    maskOf = (fun t : Nat × Bool => if t.2 then some t.1 else none) ∘ idDrafted := by
  funext p
  by_cases h : p.drafted <;> simp [maskOf, idDrafted, h]

lemma draftedView_eq_map_maskOf (ps : List Player) :
    draftedView ps = (byRank ps).map maskOf := rfl

lemma map_comp_of_map_eq {α β γ : Type} {l₁ l₂ : List α} {f : α → β}
    (h : l₁.map f = l₂.map f) (g : β → γ) : l₁.map (g ∘ f) = l₂.map (g ∘ f) := by
  rw [← List.map_map, ← List.map_map, h]

lemma availableOf_mem {ps : List Player} {p : Player} (h : p ∈ availableOf ps) :
    p ∈ byRank ps ∧ p.drafted = false := by
  unfold availableOf at h
  refine ⟨List.mem_of_mem_filter h, ?_⟩
  have := List.of_mem_filter h
  simpa using this

lemma byRank_mem {ps : List Player} {p : Player} (h : p ∈ byRank ps) : p ∈ ps := by
  unfold byRank at h
  exact (List.perm_insertionSort _ ps).mem_iff.mp h

lemma availableOf_length {ps : List Player} :
    (availableOf ps).length = (byRank ps).countP fun p => !p.drafted := by
  unfold availableOf
  exact (List.countP_eq_length_filter _ _).symm

lemma orderedAvail_facts {ps : List Player} {f t : Nat}
    (hf : f < (availableOf ps).length) :
    (∀ a ∈ spliceIn ((availableOf ps).eraseIdx f) t ((availableOf ps)[f]),
        a.drafted = false) ∧
      (spliceIn ((availableOf ps).eraseIdx f) t ((availableOf ps)[f])).length =
        (byRank ps).countP (fun p => !p.drafted) ∧
      List.Perm (spliceIn ((availableOf ps).eraseIdx f) t ((availableOf ps)[f]))
        (availableOf ps) := by
  have hperm : List.Perm
      (spliceIn ((availableOf ps).eraseIdx f) t ((availableOf ps)[f]))
      (availableOf ps) :=
    (spliceIn_perm _ _ _).trans (getElem_cons_eraseIdx_perm _ f hf)
  refine ⟨?_, ?_, hperm⟩
  · intro a ha
    exact (availableOf_mem (hperm.mem_iff.mp ha)).2
  · rw [hperm.length_eq, availableOf_length]

lemma applyReorder_eq_of_lt {ps : List Player} {f t : Nat}
    (hf : f < (availableOf ps).length) :
    applyReorder ps f t =
      reRankFrom ps 0 (mergeRanked (byRank ps)
        (spliceIn ((availableOf ps).eraseIdx f) t ((availableOf ps)[f]))) := by
  have hstep : applyReorder ps f t =
      match (availableOf ps)[f]? with
      | none => ps
      | some moved =>
        reRankFrom ps 0 (mergeRanked (byRank ps)
          (spliceIn ((availableOf ps).eraseIdx f) t moved)) := rfl
  rw [hstep, List.getElem?_eq_getElem hf]

lemma merged_sub {ps : List Player} {f t : Nat} (hf : f < (availableOf ps).length) :
    ∀ p ∈ mergeRanked (byRank ps)
        (spliceIn ((availableOf ps).eraseIdx f) t ((availableOf ps)[f])), p ∈ ps := by
  obtain ⟨hund, hlen, hperm⟩ := orderedAvail_facts (t := t) hf
  intro p hp
  have := (mergeRanked_perm _ _ hlen).mem_iff.mp hp
  rcases List.mem_append.mp this with h | h
  · exact byRank_mem (List.mem_of_mem_filter h)
  · exact byRank_mem (availableOf_mem (hperm.mem_iff.mp h)).1

lemma merged_perm_byRank {ps : List Player} {f t : Nat}
    (hf : f < (availableOf ps).length) :
    List.Perm (mergeRanked (byRank ps)
        (spliceIn ((availableOf ps).eraseIdx f) t ((availableOf ps)[f])))
      (byRank ps) := by
  obtain ⟨hund, hlen, hperm⟩ := orderedAvail_facts (t := t) hf
  have h1 := mergeRanked_perm _ _ hlen
  have h2 : List.Perm
      (((byRank ps).filter fun p => p.drafted) ++
        spliceIn ((availableOf ps).eraseIdx f) t ((availableOf ps)[f]))
      (((byRank ps).filter fun p => p.drafted) ++ availableOf ps) :=
    hperm.append_left _
  have h3 : List.Perm
      (((byRank ps).filter fun p => p.drafted) ++ availableOf ps) (byRank ps) := by
    have := List.filter_append_perm (fun p => p.drafted) (byRank ps)
    simpa [availableOf] using this
  exact (h1.trans h2).trans h3

lemma byRank_perm (ps : List Player) : List.Perm (byRank ps) ps :=
  List.perm_insertionSort _ ps

lemma applyReorder_draftedView {ps : List Player} {f t : Nat}
    (hn : (ps.map Player.id).Nodup) (hf : f < (availableOf ps).length) :
    draftedView (applyReorder ps f t) = draftedView ps := by
  obtain ⟨hund, hlen, hperm⟩ := orderedAvail_facts (t := t) hf
  rw [applyReorder_eq_of_lt hf]
  have hsub := merged_sub (t := t) hf
  have hcore := reRankFrom_map_coreFields hn _ hsub 0
  have hrank := @reRankFrom_map_rank ps
    (mergeRanked (byRank ps) (spliceIn ((availableOf ps).eraseIdx f) t ((availableOf ps)[f]))) 0
  have hsorted := pairwise_rank_of_map_range' _ 0 (by rw [reRankFrom_length]; exact hrank)
  rw [draftedView_eq_map_maskOf, byRank_eq_self hsorted]
  have hmask1 : (reRankFrom ps 0 (mergeRanked (byRank ps)
      (spliceIn ((availableOf ps).eraseIdx f) t ((availableOf ps)[f])))).map maskOf =
      (mergeRanked (byRank ps)
        (spliceIn ((availableOf ps).eraseIdx f) t ((availableOf ps)[f]))).map maskOf := by
    rw [maskOf_eq_comp_idDrafted, idDrafted_eq_comp_coreFields, ← Function.comp_assoc]
    exact map_comp_of_map_eq hcore _
  rw [hmask1, mergeRanked_map_maskOf _ _ hund hlen, draftedView_eq_map_maskOf]

lemma applyReorder_ids_perm {ps : List Player} {f t : Nat}
    (hn : (ps.map Player.id).Nodup) (hf : f < (availableOf ps).length) :
    List.Perm ((applyReorder ps f t).map Player.id) (ps.map Player.id) := by
  obtain ⟨hund, hlen, hperm⟩ := orderedAvail_facts (t := t) hf
  rw [applyReorder_eq_of_lt hf]
  have hsub := merged_sub (t := t) hf
  have hcore := reRankFrom_map_coreFields hn _ hsub 0
  have hids : (reRankFrom ps 0 (mergeRanked (byRank ps)
      (spliceIn ((availableOf ps).eraseIdx f) t ((availableOf ps)[f])))).map Player.id =
      (mergeRanked (byRank ps)
        (spliceIn ((availableOf ps).eraseIdx f) t ((availableOf ps)[f]))).map Player.id := by
    rw [id_eq_fst_comp_coreFields]
    exact map_comp_of_map_eq hcore _
  rw [hids]
  exact ((merged_perm_byRank (t := t) hf).map Player.id).trans
    ((byRank_perm ps).map Player.id)

lemma applyReorder_nodup {ps : List Player} {f t : Nat}
    (hn : (ps.map Player.id).Nodup) (hf : f < (availableOf ps).length) :
    ((applyReorder ps f t).map Player.id).Nodup :=
  ((applyReorder_ids_perm hn hf).nodup_iff).mpr hn

lemma id_eq_fst_comp_idDrafted :
    Player.id = (fun t : Nat × Bool => t.1) ∘ idDrafted := by
  funext p
  rfl

lemma reRankTierFrom_length {ps : List Player} (movedId newTier : Nat)
    (l : List Player) (n : Nat) :
    (reRankTierFrom ps movedId newTier n l).length = l.length := by
  have := congrArg List.length (@reRankTierFrom_map_rank ps movedId newTier l n)
  simpa using this

lemma applyReorderLegacy_eq_of_lt {ps : List Player} {f t : Nat}
    (hf : f < (availableOf ps).length) :
    ∃ nt : Nat, applyReorderLegacy ps f t =
      reRankTierFrom ps ((availableOf ps)[f]).id nt 0
        (mergeRanked (byRank ps)
          (spliceIn ((availableOf ps).eraseIdx f) t ((availableOf ps)[f]))) := by
  refine ⟨(fun (merged : List Player) =>
      let newIndex := jsFindIndex merged fun x => x.id == ((availableOf ps)[f]).id
      let left := jsAt merged (newIndex - 1)
      let right := jsAt merged (newIndex + 1)
      let lt := left.map fun q => tierOfById ps q.id
      let rt := right.map fun q => tierOfById ps q.id
      match lt, rt with
      | some a, some b => min a b
      | some a, none => a
      | none, some b => b
      | none, none => tierOfById ps ((availableOf ps)[f]).id)
    (mergeRanked (byRank ps)
      (spliceIn ((availableOf ps).eraseIdx f) t ((availableOf ps)[f]))), ?_⟩
  have hstep : applyReorderLegacy ps f t =
      match (availableOf ps)[f]? with
      | none => ps
      | some moved =>
        let ordered := spliceIn ((availableOf ps).eraseIdx f) t moved
        let merged := mergeRanked (byRank ps) ordered
        let newIndex := jsFindIndex merged fun x => x.id == moved.id
        let left := jsAt merged (newIndex - 1)
        let right := jsAt merged (newIndex + 1)
        let lt := left.map fun q => tierOfById ps q.id
        let rt := right.map fun q => tierOfById ps q.id
        let newTier :=
          match lt, rt with
          | some a, some b => min a b
          | some a, none => a
          | none, some b => b
          | none, none => tierOfById ps moved.id
        reRankTierFrom ps moved.id newTier 0 merged := rfl
  rw [hstep, List.getElem?_eq_getElem hf]

lemma applyReorderLegacy_draftedView {ps : List Player} {f t : Nat}
    (hn : (ps.map Player.id).Nodup) (hf : f < (availableOf ps).length) :
    draftedView (applyReorderLegacy ps f t) = draftedView ps := by
  obtain ⟨nt, heq⟩ := applyReorderLegacy_eq_of_lt (t := t) hf
  obtain ⟨hund, hlen, hperm⟩ := orderedAvail_facts (t := t) hf
  rw [heq]
  have hsub := merged_sub (t := t) hf
  have hidd := reRankTierFrom_map_idDrafted hn ((availableOf ps)[f]).id nt _ hsub 0
  have hrank := @reRankTierFrom_map_rank ps ((availableOf ps)[f]).id nt
    (mergeRanked (byRank ps) (spliceIn ((availableOf ps).eraseIdx f) t ((availableOf ps)[f]))) 0
  have hsorted := pairwise_rank_of_map_range' _ 0
    (by rw [reRankTierFrom_length]; exact hrank)
  rw [draftedView_eq_map_maskOf, byRank_eq_self hsorted]
  have hmask1 : (reRankTierFrom ps ((availableOf ps)[f]).id nt 0 (mergeRanked (byRank ps)
      (spliceIn ((availableOf ps).eraseIdx f) t ((availableOf ps)[f])))).map maskOf =
      (mergeRanked (byRank ps)
        (spliceIn ((availableOf ps).eraseIdx f) t ((availableOf ps)[f]))).map maskOf := by
    rw [maskOf_eq_comp_idDrafted]
    exact map_comp_of_map_eq hidd _
  rw [hmask1, mergeRanked_map_maskOf _ _ hund hlen, draftedView_eq_map_maskOf]

lemma applyReorderLegacy_ids_perm {ps : List Player} {f t : Nat}
    (hn : (ps.map Player.id).Nodup) (hf : f < (availableOf ps).length) :
    List.Perm ((applyReorderLegacy ps f t).map Player.id) (ps.map Player.id) := by
  obtain ⟨nt, heq⟩ := applyReorderLegacy_eq_of_lt (t := t) hf
  rw [heq]
  have hsub := merged_sub (t := t) hf
  have hidd := reRankTierFrom_map_idDrafted hn ((availableOf ps)[f]).id nt _ hsub 0
  have hids : (reRankTierFrom ps ((availableOf ps)[f]).id nt 0 (mergeRanked (byRank ps)
      (spliceIn ((availableOf ps).eraseIdx f) t ((availableOf ps)[f])))).map Player.id =
      (mergeRanked (byRank ps)
        (spliceIn ((availableOf ps).eraseIdx f) t ((availableOf ps)[f]))).map Player.id := by
    rw [id_eq_fst_comp_idDrafted]
    exact map_comp_of_map_eq hidd _
  rw [hids]
  exact ((merged_perm_byRank (t := t) hf).map Player.id).trans
    ((byRank_perm ps).map Player.id)

lemma applyReorderLegacy_nodup {ps : List Player} {f t : Nat}
    (hn : (ps.map Player.id).Nodup) (hf : f < (availableOf ps).length) :
    ((applyReorderLegacy ps f t).map Player.id).Nodup :=
  ((applyReorderLegacy_ids_perm hn hf).nodup_iff).mpr hn

lemma applyReorders_draftedView :
    ∀ (ops : List (Nat × Nat)) (ps : List Player), (ps.map Player.id).Nodup →
      validSeq ops ps = true → draftedView (applyReorders ops ps) = draftedView ps
  | [], ps, _, _ => rfl
  | (f, t) :: rest, ps, hn, hv => by
    have hv' : f < (availableOf ps).length ∧ validSeq rest (applyReorder ps f t) = true := by
      simpa [validSeq] using hv
    have hstep := applyReorder_draftedView (t := t) hn hv'.1
    have hnext := applyReorders_draftedView rest (applyReorder ps f t)
      (applyReorder_nodup hn hv'.1) hv'.2
    simpa [applyReorders, hstep] using hnext

lemma applyReordersLegacy_draftedView :
    ∀ (ops : List (Nat × Nat)) (ps : List Player), (ps.map Player.id).Nodup →
      validSeqLegacy ops ps = true →
      draftedView (applyReordersLegacy ops ps) = draftedView ps
  | [], ps, _, _ => rfl
  | (f, t) :: rest, ps, hn, hv => by
    have hv' : f < (availableOf ps).length ∧
        validSeqLegacy rest (applyReorderLegacy ps f t) = true := by
      simpa [validSeqLegacy] using hv
    have hstep := applyReorderLegacy_draftedView (t := t) hn hv'.1
    have hnext := applyReordersLegacy_draftedView rest (applyReorderLegacy ps f t)
      (applyReorderLegacy_nodup hn hv'.1) hv'.2
    simpa [applyReordersLegacy, hstep] using hnext

lemma filter_undrafted_map_id_congr :
    ∀ {l₁ l₂ : List Player}, l₁.map idDrafted = l₂.map idDrafted →
      (l₁.filter fun p => !p.drafted).map Player.id =
        (l₂.filter fun p => !p.drafted).map Player.id := by
  intro l₁
  induction l₁ with
  | nil =>
    intro l₂ h
    have : l₂ = [] := List.map_eq_nil_iff.mp h.symm
    simp [this]
  | cons p r ih =>
    intro l₂ h
    match l₂, h with
    | q :: r₂, h =>
      rw [List.map_cons, List.map_cons] at h
      have h1 : idDrafted p = idDrafted q := (List.cons.injEq _ _ _ _ ▸ h).1
      have h2 : r.map idDrafted = r₂.map idDrafted := (List.cons.injEq _ _ _ _ ▸ h).2
      have hid : p.id = q.id := (Prod.mk.injEq _ _ _ _ ▸ h1).1
      have hdr : p.drafted = q.drafted := (Prod.mk.injEq _ _ _ _ ▸ h1).2
      by_cases hd : p.drafted = true
      · simp [List.filter_cons, hd, ← hdr, ih h2]
      · have hd' : p.drafted = false := by simpa using hd
        simp [List.filter_cons, hd', ← hdr, hid, ih h2]

lemma posRankGo_append :
    ∀ (l₁ l₂ : List Player) (counts : String → Option Nat) (m : Nat → Option Nat),
      posRankGo counts m (l₁ ++ l₂) =
        posRankGo (posRankGo counts m l₁).1 (posRankGo counts m l₁).2 l₂ := by
  intro l₁
  induction l₁ with
  | nil => intro l₂ counts m; rfl
  | cons p r ih =>
    intro l₂ counts m
    match hc : counts (effPos p) with
    | none => simpa [posRankGo, hc] using ih l₂ counts m
    | some c => simpa [posRankGo, hc] using ih l₂ _ _

lemma posRankGo_map_untouched :
    ∀ (l : List Player) (counts : String → Option Nat) (m : Nat → Option Nat) (x : Nat),
      (∀ p ∈ l, p.id ≠ x) → (posRankGo counts m l).2 x = m x := by
  intro l
  induction l with
  | nil => intro counts m x _; rfl
  | cons p r ih =>
    intro counts m x h
    have hx : p.id ≠ x := h p (by simp)
    have hr : ∀ q ∈ r, q.id ≠ x := fun q hq => h q (by simp [hq])
    match hc : counts (effPos p) with
    | none => simpa [posRankGo, hc] using ih counts m x hr
    | some c =>
      have := ih (updateFn counts (effPos p) (c + 1)) (updateFn m p.id (c + 1)) x hr
      rw [posRankGo, hc, this, updateFn]
      simp [Ne.symm hx]

lemma posRankGo_counts :
    ∀ (l : List Player) (counts : String → Option Nat) (m : Nat → Option Nat) (s : String),
      (posRankGo counts m l).1 s =
        match counts s with
        | none => none
        | some k => some (k + l.countP fun p => effPos p == s) := by
  intro l
  induction l with
  | nil =>
    intro counts m s
    match hc : counts s with
    | none => simp [posRankGo, hc]
    | some k => simp [posRankGo, hc]
  | cons p r ih =>
    intro counts m s
    by_cases hs : effPos p = s
    · match hc : counts (effPos p) with
      | none =>
        rw [posRankGo, hc, ih]
        rw [hs] at hc
        simp [hc]
      | some c =>
        rw [posRankGo, hc, ih]
        have hup : updateFn counts (effPos p) (c + 1) s = some (c + 1) := by
          simp [updateFn, hs]
        rw [hs] at hc
        rw [hup, hc]
        have hbeq : (effPos p == s) = true := by simpa using hs
        simp only [List.countP_cons, hbeq, if_true, Option.some.injEq]
        omega
    · match hc : counts (effPos p) with
      | none =>
        rw [posRankGo, hc, ih]
        have : (effPos p == s) = false := by simpa using hs
        simp [List.countP_cons, this]
      | some c =>
        rw [posRankGo, hc, ih]
        have hne : (effPos p == s) = false := by simpa using hs
        have hup : updateFn counts (effPos p) (c + 1) s = counts s := by
          simp [updateFn, Ne.symm hs]
        simp [hup, List.countP_cons, hne]

lemma eq_take_cons_drop {l : List Player} {j : Nat} {p : Player}
    (hj : l[j]? = some p) : l = l.take j ++ p :: l.drop (j + 1) := by
  have hlt : j < l.length := by
    by_contra hge
    rw [List.getElem?_eq_none (by omega)] at hj
    exact Option.noConfusion hj
  have hp : l[j] = p := by
    have := List.getElem?_eq_getElem hlt
    rw [this] at hj
    exact Option.some.injEq _ _ ▸ hj
  have := List.getElem_cons_drop l j hlt
  rw [hp] at this
  rw [this]
  exact (List.take_append_drop j l).symm

lemma nodup_split_ids {l₁ l₂ : List Player} {p : Player}
    (hn : ((l₁ ++ p :: l₂).map Player.id).Nodup) :
    (∀ q ∈ l₁, q.id ≠ p.id) ∧ (∀ q ∈ l₂, q.id ≠ p.id) := by
  rw [List.map_append, List.map_cons] at hn
  constructor
  · intro q hq
    have hdisj := List.disjoint_of_nodup_append hn
    intro heq
    exact hdisj (List.mem_map_of_mem Player.id hq) (heq ▸ List.mem_cons_self _ _)
  · intro q hq
    have hright := hn.of_append_right
    rw [List.nodup_cons] at hright
    intro heq
    exact hright.1 (heq ▸ List.mem_map_of_mem Player.id hq)

lemma contains_effPos_eq (p : Player) :
    recognizedPos.contains (effPos p) = recognizedPos.contains p.pos := by
  by_cases h : p.pos = ""
  · rw [effPos, if_pos h, h]
    rfl
  · rw [effPos, if_neg h]

lemma countP_effPos_eq {l : List Player} {p : Player}
    (hrec : recognizedPos.contains p.pos = true) :
    (l.countP fun q => effPos q == effPos p) = l.countP fun q => q.pos == p.pos := by
  have hpos : p.pos ≠ "" := by
    intro h
    rw [h] at hrec
    simp [recognizedPos] at hrec
  have hna : p.pos ≠ "NA" := by
    intro h
    rw [h] at hrec
    simp [recognizedPos] at hrec
  apply List.countP_congr
  intro q _
  have heff : effPos p = p.pos := by rw [effPos, if_neg hpos]
  by_cases hq : q.pos = ""
  · have : effPos q = "NA" := by rw [effPos, if_pos hq]
    simp [this, heff, hq, Ne.symm hna, Ne.symm hpos]
  · have : effPos q = q.pos := by rw [effPos, if_neg hq]
    simp [this, heff]

lemma draft_then_undo_players (players : List Player) (id : Nat)
    (h : ∀ p ∈ players, p.id = id → p.drafted = false) :
    (players.map fun p => if p.id == id then { p with drafted := true } else p).map
      (fun p => if p.id == id then { p with drafted := false } else p) = players := by
  induction players with
  | nil => rfl
  | cons p rest ih =>
    have ht := ih fun q hq hq' => h q (List.mem_cons_of_mem _ hq) hq'
    rw [List.map_cons, List.map_cons, ht]
    by_cases hid : p.id = id
    · have hdraft := h p (List.mem_cons_self _ _) hid
      cases p with
      | mk pid pname ppos pteam ptier pdrafted prank =>
        simp only at hid hdraft
        simp [hid, hdraft]
    · cases p with
      | mk pid pname ppos pteam ptier pdrafted prank =>
        simp only at hid
        simp [hid]

/-- Projection of a player onto every field except `drafted`. -/
def nonDraftFields (p : Player) : Nat × String × String × String × Nat × Nat :=
  (p.id, p.name, p.pos, p.team, p.tier, p.rank)

/-- C1: for every state whose entity ids are duplicate-free and every sequence of
`reorder(fromAvailableIndex, toAvailableIndex)` calls whose source index is a valid
available-list index at the time of each call, the drafted entities of the full
rank-ordered collection keep both their mutual relative order and their exact slots
among the undrafted entities: the per-position drafted view (`some id` at drafted
slots, `none` at undrafted slots) is unchanged — in the current reorder engine and
in the legacy one alike. -/
theorem reorder_sequence_preserves_drafted_slots
    (ps : List Player) (ops : List (Nat × Nat))
    (hn : (ps.map Player.id).Nodup)
    (hv : validSeq ops ps = true) (hvl : validSeqLegacy ops ps = true) :
    draftedView (applyReorders ops ps) = draftedView ps ∧
      draftedView (applyReordersLegacy ops ps) = draftedView ps :=
  ⟨applyReorders_draftedView ops ps hn hv, applyReordersLegacy_draftedView ops ps hn hvl⟩

/-- Witness for C1 at a concrete state (four entities, the second drafted) and a
two-step reorder sequence. -/
theorem reorder_sequence_preserves_drafted_slots_witness :
    draftedView (applyReorders [(0, 2), (1, 0)]
        [⟨1, "A", "WR", "CIN", 1, false, 0⟩, ⟨2, "B", "RB", "SF", 1, true, 1⟩,
          ⟨3, "C", "WR", "DAL", 1, false, 2⟩, ⟨4, "D", "TE", "DET", 1, false, 3⟩]) =
      draftedView
        [⟨1, "A", "WR", "CIN", 1, false, 0⟩, ⟨2, "B", "RB", "SF", 1, true, 1⟩,
          ⟨3, "C", "WR", "DAL", 1, false, 2⟩, ⟨4, "D", "TE", "DET", 1, false, 3⟩] ∧
      draftedView (applyReordersLegacy [(0, 2), (1, 0)]
        [⟨1, "A", "WR", "CIN", 1, false, 0⟩, ⟨2, "B", "RB", "SF", 1, true, 1⟩,
          ⟨3, "C", "WR", "DAL", 1, false, 2⟩, ⟨4, "D", "TE", "DET", 1, false, 3⟩]) =
      draftedView
        [⟨1, "A", "WR", "CIN", 1, false, 0⟩, ⟨2, "B", "RB", "SF", 1, true, 1⟩,
          ⟨3, "C", "WR", "DAL", 1, false, 2⟩, ⟨4, "D", "TE", "DET", 1, false, 3⟩] :=
  reorder_sequence_preserves_drafted_slots _ _ (by decide) (by decide) (by decide)

/-- C2: drafting an entity whose `drafted` flag is currently `false` and then
immediately undoing restores the state exactly: every entity record (ids,
categories, groups, names, tiers, ranks and drafted flags) and the draft event
log are as before the draft. -/
theorem draft_then_undo_roundtrip (s : EngineState) (id : Nat)
    (h : ∀ p ∈ s.players, p.id = id → p.drafted = false) :
    undoLast (draftPlayer s id) = s := by
  cases s with
  | mk players history =>
    have h' : ∀ p ∈ players, p.id = id → p.drafted = false := h
    show undoLast
        ⟨players.map fun p => if p.id == id then { p with drafted := true } else p,
          history ++ [id]⟩ = ⟨players, history⟩
    simp only [undoLast, List.getLast?_concat]
    rw [List.dropLast_concat, draft_then_undo_players players id h']

/-- Witness for C2 at a concrete two-entity state with a non-empty log. -/
theorem draft_then_undo_roundtrip_witness :
    undoLast (draftPlayer
        ⟨[⟨1, "A", "WR", "CIN", 1, false, 0⟩, ⟨2, "B", "RB", "SF", 1, true, 1⟩], [2]⟩ 1) =
      ⟨[⟨1, "A", "WR", "CIN", 1, false, 0⟩, ⟨2, "B", "RB", "SF", 1, true, 1⟩], [2]⟩ :=
  draft_then_undo_roundtrip _ 1 (by decide)

/-- C6: `draft(id)` appends `id` to the draft event log, changes no rank value,
changes no field other than `drafted` of any entity, sets the `drafted` flag of
exactly the entities with that id (leaving every other flag as it was), and in
particular every entity with that id is drafted afterwards. -/
theorem draft_sets_flag_appends_log_preserves_ranks (s : EngineState) (id : Nat) :
    (draftPlayer s id).history = s.history ++ [id] ∧
    (draftPlayer s id).players.map Player.rank = s.players.map Player.rank ∧
    (draftPlayer s id).players.map nonDraftFields = s.players.map nonDraftFields ∧
    (draftPlayer s id).players.map Player.drafted =
      s.players.map (fun p => p.drafted || (p.id == id)) ∧
    ∀ p ∈ (draftPlayer s id).players, p.id = id → p.drafted = true := by
  refine ⟨rfl, ?_, ?_, ?_, ?_⟩
  · show (s.players.map fun p =>
        if p.id == id then { p with drafted := true } else p).map Player.rank =
      s.players.map Player.rank
    rw [List.map_map]
    apply List.map_congr_left
    intro p _
    by_cases hid : p.id = id <;> simp [hid]
  · show (s.players.map fun p =>
        if p.id == id then { p with drafted := true } else p).map nonDraftFields =
      s.players.map nonDraftFields
    rw [List.map_map]
    apply List.map_congr_left
    intro p _
    by_cases hid : p.id = id <;> simp [hid, nonDraftFields]
  · show (s.players.map fun p =>
        if p.id == id then { p with drafted := true } else p).map Player.drafted =
      s.players.map fun p => p.drafted || (p.id == id)
    rw [List.map_map]
    apply List.map_congr_left
    intro p _
    by_cases hid : p.id = id <;> simp [hid]
  · intro p hp hpid
    obtain ⟨q, _, hq⟩ := List.mem_map.mp hp
    by_cases hid : (q.id == id) = true
    · rw [if_pos hid] at hq
      rw [← hq]
    · rw [if_neg hid] at hq
      rw [← hq] at hpid
      exact absurd (by simpa using hpid) (by simpa using hid)

/-- C7: a `reorder(i, i)` call with a valid available index leaves the available
entity-id sequence identical, leaves every field except `rank` of the full
rank-ordered collection identical, and rewrites the ranks to the position indices
`0, 1, 2, …` of the full ordering. -/
theorem reorder_same_index_is_identity (ps : List Player) (i : Nat)
    (hn : (ps.map Player.id).Nodup) (hi : i < (availableOf ps).length) :
    availIds (applyReorder ps i i) = availIds ps ∧
    (applyReorder ps i i).map coreFields = (byRank ps).map coreFields ∧
    (applyReorder ps i i).map Player.rank = List.range (byRank ps).length := by
  have hsplice : spliceIn ((availableOf ps).eraseIdx i) i ((availableOf ps)[i]) =
      availableOf ps :=
    spliceIn_eraseIdx_self _ _ _ (List.getElem?_eq_getElem hi)
  have heq : applyReorder ps i i = reRankFrom ps 0 (byRank ps) := by
    rw [applyReorder_eq_of_lt hi, hsplice,
      show availableOf ps = (byRank ps).filter fun p => !p.drafted from rfl,
      mergeRanked_self_filter]
  have hsub : ∀ p ∈ byRank ps, p ∈ ps := fun p hp => byRank_mem hp
  have hcore := reRankFrom_map_coreFields hn _ hsub 0
  have hrank := @reRankFrom_map_rank ps (byRank ps) 0
  refine ⟨?_, ?_, ?_⟩
  · rw [heq]
    have hsorted := pairwise_rank_of_map_range' _ 0
      (by rw [reRankFrom_length]; exact hrank)
    have hidd : (reRankFrom ps 0 (byRank ps)).map idDrafted =
        (byRank ps).map idDrafted := by
      rw [idDrafted_eq_comp_coreFields]
      exact map_comp_of_map_eq hcore _
    show ((byRank (reRankFrom ps 0 (byRank ps))).filter fun p => !p.drafted).map Player.id =
      ((byRank ps).filter fun p => !p.drafted).map Player.id
    rw [byRank_eq_self hsorted]
    exact filter_undrafted_map_id_congr hidd
  · rw [heq]
    exact hcore
  · rw [heq, hrank, List.range_eq_range']

/-- Witness for C7 at a concrete three-entity state (the second drafted) and the
valid available index 1. -/
theorem reorder_same_index_is_identity_witness :
    availIds (applyReorder
        [⟨1, "A", "WR", "CIN", 1, false, 0⟩, ⟨2, "B", "RB", "SF", 1, true, 1⟩,
          ⟨3, "C", "WR", "DAL", 1, false, 2⟩] 1 1) =
      availIds
        [⟨1, "A", "WR", "CIN", 1, false, 0⟩, ⟨2, "B", "RB", "SF", 1, true, 1⟩,
          ⟨3, "C", "WR", "DAL", 1, false, 2⟩] ∧
    (applyReorder
        [⟨1, "A", "WR", "CIN", 1, false, 0⟩, ⟨2, "B", "RB", "SF", 1, true, 1⟩,
          ⟨3, "C", "WR", "DAL", 1, false, 2⟩] 1 1).map coreFields =
      (byRank
        [⟨1, "A", "WR", "CIN", 1, false, 0⟩, ⟨2, "B", "RB", "SF", 1, true, 1⟩,
          ⟨3, "C", "WR", "DAL", 1, false, 2⟩]).map coreFields ∧
    (applyReorder
        [⟨1, "A", "WR", "CIN", 1, false, 0⟩, ⟨2, "B", "RB", "SF", 1, true, 1⟩,
          ⟨3, "C", "WR", "DAL", 1, false, 2⟩] 1 1).map Player.rank =
      List.range (byRank
        [⟨1, "A", "WR", "CIN", 1, false, 0⟩, ⟨2, "B", "RB", "SF", 1, true, 1⟩,
          ⟨3, "C", "WR", "DAL", 1, false, 2⟩]).length :=
  reorder_same_index_is_identity _ 1 (by decide) (by decide)

/-- C8: on a collection of five available entities ranked `[A, B, C, D, E]`
(ids 1–5), `reorder(0, 3)` yields the available order `[B, C, D, A, E]`
(ids `[2, 3, 4, 1, 5]`). -/
theorem reorder_scenario_five_entities :
    availIds (applyReorder
        [⟨1, "A", "WR", "CIN", 1, false, 0⟩, ⟨2, "B", "RB", "SF", 1, false, 1⟩,
          ⟨3, "C", "WR", "DAL", 1, false, 2⟩, ⟨4, "D", "TE", "DET", 1, false, 3⟩,
          ⟨5, "E", "QB", "BUF", 1, false, 4⟩] 0 3) = [2, 3, 4, 1, 5] := by
  decide

/-- C3: `pickToCoord` (pick index to snake coordinate) and the board renderer's
`snakedIndex` (snake coordinate to pick index) are mutual inverses for every
pick index `k ≥ 0`, every `numSlots > 0` and every in-range column. -/
theorem snake_coordinate_roundtrip (n k r c : Nat) (hn : 0 < n) (hc : c < n) :
    snakedIndex n (pickToCoord n k).1 (pickToCoord n k).2 = k ∧
    pickToCoord n (snakedIndex n r c) = (r, c) := by
  constructor
  · have hi : k % n < n := Nat.mod_lt _ hn
    have hdm : n * (k / n) + k % n = k := Nat.div_add_mod k n
    show snakedIndex n (k / n) (if (k / n) % 2 = 0 then k % n else n - 1 - k % n) = k
    by_cases hp : (k / n) % 2 = 0
    · rw [if_pos hp, snakedIndex, if_pos hp, Nat.mul_comm]
      exact hdm
    · rw [if_neg hp, snakedIndex, if_neg hp]
      have hsub : n - 1 - (n - 1 - k % n) = k % n := by omega
      rw [hsub, Nat.mul_comm]
      exact hdm
  · by_cases hp : r % 2 = 0
    · have hidx : snakedIndex n r c = r * n + c := by rw [snakedIndex, if_pos hp]
      have hdiv : (r * n + c) / n = r := by
        rw [Nat.mul_comm, Nat.mul_add_div hn, Nat.div_eq_of_lt hc, Nat.add_zero]
      have hmod : (r * n + c) % n = c := by
        rw [Nat.mul_comm, Nat.mul_add_mod]
        exact Nat.mod_eq_of_lt hc
      show (snakedIndex n r c / n,
          if (snakedIndex n r c / n) % 2 = 0 then snakedIndex n r c % n
          else n - 1 - snakedIndex n r c % n) = (r, c)
      rw [hidx, hdiv, hmod, if_pos hp]
    · have hc' : n - 1 - c < n := by omega
      have hidx : snakedIndex n r c = r * n + (n - 1 - c) := by
        rw [snakedIndex, if_neg hp]
      have hdiv : (r * n + (n - 1 - c)) / n = r := by
        rw [Nat.mul_comm, Nat.mul_add_div hn, Nat.div_eq_of_lt hc', Nat.add_zero]
      have hmod : (r * n + (n - 1 - c)) % n = n - 1 - c := by
        rw [Nat.mul_comm, Nat.mul_add_mod]
        exact Nat.mod_eq_of_lt hc'
      have hsub : n - 1 - (n - 1 - c) = c := by omega
      show (snakedIndex n r c / n,
          if (snakedIndex n r c / n) % 2 = 0 then snakedIndex n r c % n
          else n - 1 - snakedIndex n r c % n) = (r, c)
      rw [hidx, hdiv, hmod, if_neg hp, hsub]

/-- Witness for C3 at `numSlots = 12`, pick index 37 and coordinate (2, 5). -/
theorem snake_coordinate_roundtrip_witness :
    snakedIndex 12 (pickToCoord 12 37).1 (pickToCoord 12 37).2 = 37 ∧
      pickToCoord 12 (snakedIndex 12 2 5) = (2, 5) :=
  snake_coordinate_roundtrip 12 37 2 5 (by decide) (by decide)

/-- C4: the snake coordinate of pick `k` is round `r = k / numSlots` and column
`k % numSlots` on even rounds, `numSlots - 1 - k % numSlots` on odd rounds; with
`numSlots = 12`, pick 11 maps to (0, 11), pick 12 to (1, 11) and pick 23 to
(1, 0). -/
theorem snake_formula_and_scenarios (n k : Nat) :
    pickToCoord n k =
      (k / n, if (k / n) % 2 = 0 then k % n else n - 1 - k % n) ∧
    pickToCoord 12 11 = (0, 11) ∧ pickToCoord 12 12 = (1, 11) ∧
    pickToCoord 12 23 = (1, 0) :=
  ⟨rfl, by decide, by decide, by decide⟩

lemma jsFindIndex_ge_neg_one (l : List Player) (f : Player → Bool) :
    -1 ≤ jsFindIndex l f := by
  cases h : l.findIdx? f with
  | none => simp [jsFindIndex, h]
  | some i =>
    simp only [jsFindIndex, h]
    omega

/-- C5, counterexample to the claim as stated: `draftPlayer` applied to an id
that resolves to no entity still appends that id to the draft event log, so the
operation is not a no-op on the state. -/
theorem invalid_draft_mutates_log_counterexample :
    draftPlayer ⟨[⟨1, "A", "WR", "CIN", 1, false, 0⟩], []⟩ 2 ≠
      ⟨[⟨1, "A", "WR", "CIN", 1, false, 0⟩], []⟩ ∧
    (draftPlayer ⟨[⟨1, "A", "WR", "CIN", 1, false, 0⟩], []⟩ 2).history = [2] := by
  constructor
  · decide
  · rfl

/-- C5, amended: a reorder commit whose dragged id or insert-before id cannot be
resolved in the current available ordering is a silent no-op, and so is undo on
an empty log; a draft of an unresolvable id leaves the entity collection
unchanged but still appends the id to the draft event log (no error in any
case). -/
theorem invalid_ops_amended :
    (∀ (s : EngineState) (fid : Option Nat) (tid : Option Nat),
        (∀ p ∈ availableOf s.players, fid ≠ some p.id) →
        commitReorder s fid tid = s) ∧
    (∀ (s : EngineState) (fid : Option Nat) (tidv : Nat),
        (∀ p ∈ availableOf s.players, p.id ≠ tidv) →
        commitReorder s fid (some tidv) = s) ∧
    (∀ s : EngineState, s.history = [] → undoLast s = s) ∧
    (∀ (s : EngineState) (id : Nat), (∀ p ∈ s.players, p.id ≠ id) →
        (draftPlayer s id).players = s.players ∧
          (draftPlayer s id).history = s.history ++ [id]) := by
  refine ⟨?_, ?_, ?_, ?_⟩
  · intro s fid tid h
    have hnone : (availableOf s.players).findIdx? (fun p => some p.id == fid) = none := by
      rw [List.findIdx?_eq_none_iff]
      intro p hp
      rw [beq_eq_false_iff_ne]
      exact fun hcon => h p hp hcon.symm
    have h1 : jsFindIndex (availableOf s.players) (fun p => some p.id == fid) = -1 := by
      rw [jsFindIndex, hnone]
    have hneg : ¬(0 ≤ (-1 : Int)) := by decide
    simp only [commitReorder, h1]
    rw [if_neg fun hcon => hneg hcon.1]
  · intro s fid tidv h
    have hnone : (availableOf s.players).findIdx? (fun p => p.id == tidv) = none := by
      rw [List.findIdx?_eq_none_iff]
      intro p hp
      rw [beq_eq_false_iff_ne]
      exact h p hp
    have h2 : jsFindIndex (availableOf s.players) (fun p => p.id == tidv) = -1 := by
      rw [jsFindIndex, hnone]
    have hge := jsFindIndex_ge_neg_one (availableOf s.players) fun p => some p.id == fid
    have hnotlt : ¬(jsFindIndex (availableOf s.players)
        (fun p => some p.id == fid) < -1) := not_lt.mpr hge
    have hneg : ¬(0 ≤ (-1 : Int)) := by decide
    simp only [commitReorder, h2]
    rw [if_neg hnotlt, if_neg fun hcon => hneg hcon.2]
  · intro s h
    rw [undoLast, h]
    rfl
  · intro s id h
    constructor
    · show s.players.map (fun p => if p.id == id then { p with drafted := true } else p) =
        s.players
      have hpt : ∀ p ∈ s.players,
          (if p.id == id then { p with drafted := true } else p) = p := by
        intro p hp
        rw [if_neg (by simpa using h p hp)]
      rw [List.map_congr_left hpt, List.map_id']
    · rfl

/-- Witness for C5 (amended) at concrete single-entity states: an unresolvable
drag id, an unresolvable insert-before id, an empty-log undo and an
unresolvable draft id. -/
theorem invalid_ops_amended_witness :
    commitReorder ⟨[⟨1, "A", "WR", "CIN", 1, false, 0⟩], []⟩ (some 9) none =
      ⟨[⟨1, "A", "WR", "CIN", 1, false, 0⟩], []⟩ ∧
    commitReorder ⟨[⟨1, "A", "WR", "CIN", 1, false, 0⟩], []⟩ (some 1) (some 9) =
      ⟨[⟨1, "A", "WR", "CIN", 1, false, 0⟩], []⟩ ∧
    undoLast ⟨[⟨1, "A", "WR", "CIN", 1, false, 0⟩], []⟩ =
      ⟨[⟨1, "A", "WR", "CIN", 1, false, 0⟩], []⟩ ∧
    (draftPlayer ⟨[⟨1, "A", "WR", "CIN", 1, false, 0⟩], []⟩ 9).players =
      [⟨1, "A", "WR", "CIN", 1, false, 0⟩] ∧
    (draftPlayer ⟨[⟨1, "A", "WR", "CIN", 1, false, 0⟩], []⟩ 9).history = [9] :=
  ⟨invalid_ops_amended.1 _ (some 9) none (by decide),
    invalid_ops_amended.2.1 _ (some 1) 9 (by decide),
    invalid_ops_amended.2.2.1 _ rfl,
    (invalid_ops_amended.2.2.2 _ 9 (by decide)).1,
    (invalid_ops_amended.2.2.2 _ 9 (by decide)).2⟩

lemma posRankGo_cons_none {counts : String → Option Nat} {m : Nat → Option Nat}
    {p : Player} {rest : List Player} (h : counts (effPos p) = none) :
    posRankGo counts m (p :: rest) = posRankGo counts m rest := by
  simp [posRankGo, h]

lemma posRankGo_cons_some {counts : String → Option Nat} {m : Nat → Option Nat}
    {p : Player} {rest : List Player} {c : Nat} (h : counts (effPos p) = some c) :
    posRankGo counts m (p :: rest) =
      posRankGo (updateFn counts (effPos p) (c + 1)) (updateFn m p.id (c + 1)) rest := by
  simp [posRankGo, h]

/-- C9: the per-category sequence map assigns, to an available entity in a
recognized category, one plus the number of earlier available entities of the
same category (a 1-based per-category counter computed by one scan in rank
order), and assigns nothing to entities of unrecognized categories. -/
theorem position_counter_from_scan (avail : List Player) (j : Nat) (p : Player)
    (hn : (avail.map Player.id).Nodup) (hj : avail[j]? = some p) :
    posRankMap avail p.id =
      if recognizedPos.contains p.pos then
        some ((avail.take j).countP (fun q => q.pos == p.pos) + 1)
      else none := by
  have hdecomp := eq_take_cons_drop hj
  have hn' : ((avail.take j ++ p :: avail.drop (j + 1)).map Player.id).Nodup := by
    rw [← hdecomp]
    exact hn
  obtain ⟨hl, hr⟩ := nodup_split_ids hn'
  show (posRankGo initialCounts (fun _ => none) avail).2 p.id = _
  conv_lhs => rw [hdecomp]
  rw [posRankGo_append]
  have hcount := posRankGo_counts (avail.take j) initialCounts (fun _ => none) (effPos p)
  by_cases hrec : recognizedPos.contains (effPos p) = true
  · have hinit : initialCounts (effPos p) = some 0 := by
      rw [initialCounts, if_pos hrec]
    have hcj : (posRankGo initialCounts (fun _ => none) (avail.take j)).1 (effPos p) =
        some ((avail.take j).countP fun q => effPos q == effPos p) := by
      rw [hcount, hinit]
      simp
    rw [posRankGo_cons_some hcj, posRankGo_map_untouched _ _ _ _ hr]
    have hup : updateFn (posRankGo initialCounts (fun _ => none) (avail.take j)).2 p.id
        (((avail.take j).countP fun q => effPos q == effPos p) + 1) p.id =
        some (((avail.take j).countP fun q => effPos q == effPos p) + 1) := by
      simp [updateFn]
    rw [hup]
    have hpos : recognizedPos.contains p.pos = true := by
      rw [← contains_effPos_eq]
      exact hrec
    rw [if_pos hpos, countP_effPos_eq hpos]
  · have hinit : initialCounts (effPos p) = none := by
      rw [initialCounts, if_neg hrec]
    have hcj : (posRankGo initialCounts (fun _ => none) (avail.take j)).1 (effPos p) =
        none := by
      rw [hcount, hinit]
    rw [posRankGo_cons_none hcj, posRankGo_map_untouched _ _ _ _ hr,
      posRankGo_map_untouched _ _ _ _ hl]
    have hpos : recognizedPos.contains p.pos = false := by
      rw [← contains_effPos_eq]
      simpa using hrec
    have hniff : ¬(recognizedPos.contains p.pos = true) := by
      rw [hpos]
      simp
    rw [if_neg hniff]

/-- Witness for C9: in an available list `WR, XX, WR` (the middle category
unrecognized), the third entity is the second WR. -/
theorem position_counter_from_scan_witness :
    posRankMap
        [⟨1, "A", "WR", "CIN", 1, false, 0⟩, ⟨2, "B", "XX", "SF", 1, false, 1⟩,
          ⟨3, "C", "WR", "DAL", 1, false, 2⟩] 3 =
      if recognizedPos.contains "WR" then
        some ((([⟨1, "A", "WR", "CIN", 1, false, 0⟩, ⟨2, "B", "XX", "SF", 1, false, 1⟩,
          ⟨3, "C", "WR", "DAL", 1, false, 2⟩] : List Player).take 2).countP
            (fun q => q.pos == ("WR" : String)) + 1)
      else none :=
  position_counter_from_scan _ 2 ⟨3, "C", "WR", "DAL", 1, false, 2⟩ (by decide) (by decide)

lemma max_one_jsOr1 (v : Nat) : max 1 (jsOr1 v) = max 1 v := by
  rw [jsOr1]
  by_cases h : v = 0 <;> simp [h]

/-- C10, counterexample to the claim as stated: on the structured line
`"0, WR, CIN, First Last"` (four tokens, purely numeric first token `"0"`) the
parser returns priority 1, not token[0]'s value 0; and on
`"1, wr1, CIN, First Last"` it returns category `"WR"` although the leading
uppercase-letter run of token[1] (`"wr1"`) is empty. -/
theorem import_parse_counterexample :
    (parseImportLineStructured ("0, WR, CIN, First Last")).map ImportRec.tier = some 1 ∧
    some (1 : Nat) ≠ some 0 ∧
    (parseImportLineStructured ("1, wr1, CIN, First Last")).map ImportRec.pos =
      some ("WR") ∧
    leadingUpperRun ("wr1") = "" ∧
    ("WR" : String) ≠ "" := by
  refine ⟨by decide, by decide, by decide, by decide, by decide⟩

/-- C10, amended: for every line splitting (on comma, pipe or tab, trimmed,
empties dropped) into at least 4 tokens with a purely numeric first token, the
parser returns `max 1 (value of token[0])` as priority (a `0` becomes `1`), the
first uppercase-letter run of token[1] after uppercasing as category, token[2]
uppercased as group, and the remaining tokens joined with a space as name; the
scenario line `"1, WR, CIN, First Last"` parses to priority 1, category `"WR"`,
group `"CIN"`, name `"First Last"`. -/
theorem import_parse_structured_amended (line : String)
    (h1 : 4 ≤ (splitTokensCh line.data).length)
    (h2 : allDigitsCh ((splitTokensCh line.data).getD 0 []) = true) :
    parseImportLineStructured line =
      some
        { tier := max 1 (digitsToNat 0 ((splitTokensCh line.data).getD 0 [])),
          pos := String.mk (firstUpperRunCh (toUpperCh ((splitTokensCh line.data).getD 1 []))),
          team := String.mk (toUpperCh ((splitTokensCh line.data).getD 2 [])),
          name := String.mk (joinSpaceChars ((splitTokensCh line.data).drop 3)) } ∧
    parseImportLineStructured ("1, WR, CIN, First Last") =
      some { tier := 1, pos := "WR", team := "CIN", name := "First Last" } := by
  constructor
  · show (if 4 ≤ (splitTokensCh line.data).length ∧
        allDigitsCh ((splitTokensCh line.data).getD 0 [])
      then some
        ({ tier := max 1 (jsOr1 (digitsToNat 0 ((splitTokensCh line.data).getD 0 []))),
           pos := String.mk (firstUpperRunCh (toUpperCh ((splitTokensCh line.data).getD 1 []))),
           team := String.mk (toUpperCh ((splitTokensCh line.data).getD 2 [])),
           name := String.mk (joinSpaceChars ((splitTokensCh line.data).drop 3)) } : ImportRec)
      else none) =
      some
        ({ tier := max 1 (digitsToNat 0 ((splitTokensCh line.data).getD 0 [])),
           pos := String.mk (firstUpperRunCh (toUpperCh ((splitTokensCh line.data).getD 1 []))),
           team := String.mk (toUpperCh ((splitTokensCh line.data).getD 2 [])),
           name := String.mk (joinSpaceChars ((splitTokensCh line.data).drop 3)) } : ImportRec)
    rw [if_pos ⟨h1, h2⟩, max_one_jsOr1]
  · decide

/-- Witness for C10 (amended) at the scenario line. -/
theorem import_parse_structured_amended_witness :
    parseImportLineStructured ("1, WR, CIN, First Last") =
      some
        { tier := max 1 (digitsToNat 0 ((splitTokensCh ("1, WR, CIN, First Last").data).getD 0 [])),
          pos := String.mk (firstUpperRunCh
            (toUpperCh ((splitTokensCh ("1, WR, CIN, First Last").data).getD 1 []))),
          team := String.mk (toUpperCh ((splitTokensCh ("1, WR, CIN, First Last").data).getD 2 [])),
          name := String.mk (joinSpaceChars ((splitTokensCh ("1, WR, CIN, First Last").data).drop 3)) } ∧
    parseImportLineStructured ("1, WR, CIN, First Last") =
      some { tier := 1, pos := "WR", team := "CIN", name := "First Last" } :=
  import_parse_structured_amended ("1, WR, CIN, First Last") (by decide) (by decide)
